import Mathlib

set_option autoImplicit false

/-!
Shallow embedding of `yorm/base.py`: the `Mappable` attribute-interception
protocol and the `Dictionary` / `List` container converters with their
per-subtype `yorm_attrs` schema registries.

Python dictionaries are modelled as association lists in insertion order
(Python dicts preserve insertion order and have unique keys); attribute
converters are modelled as pairs of functions on document values.
-/

/-- A Python/YAML document value as handled by `yorm.base`: `None`, booleans,
integers, strings, lists, and string-keyed dictionaries. -/
inductive PyValue where
  | none : PyValue
  | bool : Bool → PyValue
  | int : Int → PyValue
  | str : String → PyValue
  | list : List PyValue → PyValue
  | dict : List (String × PyValue) → PyValue

/-- Association-list lookup: the value stored under key `name`, mirroring
Python `d[k]` / `d.get(k)` on a dict represented in insertion order. -/
def lookupA {α : Type} : List (String × α) → String → Option α
  | [], _ => Option.none
  | (k, v) :: rest, name => if k = name then Option.some v else lookupA rest name

/-- Association-list removal of a key, mirroring Python `d.pop(k)`'s effect on
the dict (the popped value is obtained by `lookupA` first). -/
def removeA {α : Type} (l : List (String × α)) (k : String) : List (String × α) :=
  l.filter (fun p => p.1 ≠ k)

/-- Association-list insertion `d[k] = v`: update in place when the key is
present (Python dicts keep the original position), otherwise append. -/
def insertA {α : Type} (l : List (String × α)) (k : String) (v : α) : List (String × α) :=
  if (lookupA l k).isSome then
    l.map (fun p => if p.1 = k then (k, v) else p)
  else
    l ++ [(k, v)]

/-- An attribute converter as used by `yorm.base`: `to_value` converts a
loaded document value back to the attribute's native form, `to_data` converts
a native value for dumping.  Scalar converters are external collaborators
(`yorm.standard`), so they are modelled as an arbitrary pair of functions. -/
structure Conv where
  to_value : PyValue → PyValue
  to_data : PyValue → PyValue

/-- A `yorm_attrs` schema registry: the per-subtype mapping from attribute
name to converter, in insertion order. -/
abbrev Registry : Type := List (String × Conv)

/-- Python `str.strip()`: drop leading and trailing whitespace. -/
def pyStrip (s : String) : String :=
  String.mk (((s.data.dropWhile Char.isWhitespace).reverse.dropWhile
    Char.isWhitespace).reverse)

/-- Python `str.split(sep)` for a one-character separator, given as the
predicate `p` recognizing the separator: split at every separator occurrence,
keeping empty pieces. -/
def splitPred (p : Char → Bool) : List Char → List (List Char)
  | [] => [[]]
  | c :: rest =>
      let r := splitPred p rest
      if p c then [] :: r
      else
        match r with
        | [] => [[c]]
        | g :: gs => (c :: g) :: gs

/-- Python `text.split(sep)` on strings, for a one-character separator. -/
def pySplitOn (sep : Char) (s : String) : List String :=
  (splitPred (fun c => c = sep) s.data).map String.mk

/-- Python `str.split()` with no argument: split on runs of whitespace,
discarding empty pieces. -/
def pySplitWs (s : String) : List String :=
  ((splitPred Char.isWhitespace s.data).filter (fun g => g ≠ [])).map String.mk

/-- Python `c in text` for a character `c`. -/
def pyContains (s : String) (c : Char) : Bool :=
  s.data.contains c

/-- Embeds `Dictionary.to_dict`: coerce a dictionary-like object to a dictionary.
A dict is returned as-is; a string is stripped and split on `=` (exactly two
parts give a key/value pair, anything else maps the stripped text to `None`);
everything else gives the empty dict. -/
def Dictionary.to_dict : PyValue → List (String × PyValue)
  | PyValue.dict m => m
  | PyValue.str s =>
      let text := pyStrip s
      match pySplitOn '=' text with
      | [k, v] => [(k, PyValue.str v)]
      | _ => [(text, PyValue.none)]
  | _ => []

/-- The item loop of `Dictionary.to_value`: walk the items of the coerced
mapping; pop known names from the working copy of the registry and use their
converter; for unknown names infer a converter (`standard.match`, the
parameter `infer`) and add it to the class registry.  Returns the remaining
working copy, the grown class registry, and the accumulated value mapping. -/
def Dictionary.to_value_loop (infer : PyValue → Conv) :
    List (String × PyValue) → Registry → Registry → List (String × PyValue) →
      Registry × Registry × List (String × PyValue)
  | [], copy, reg, acc => (copy, reg, acc)
  | (name, data) :: rest, copy, reg, acc =>
      match lookupA copy name with
      | Option.some conv =>
          Dictionary.to_value_loop infer rest (removeA copy name) reg
            (insertA acc name (conv.to_value data))
      | Option.none =>
          let conv := infer data
          Dictionary.to_value_loop infer rest copy (insertA reg name conv)
            (insertA acc name (conv.to_value data))

/-- Embeds `Dictionary.to_value`: coerce the object to a dict, convert each item
(possibly growing the class registry by inference), then materialize every
registry entry not consumed by the items as its converter's value of `None`.
Returns the grown registry together with the value mapping. -/
def Dictionary.to_value (infer : PyValue → Conv) (reg : Registry) (obj : PyValue) :
    Registry × List (String × PyValue) :=
  let r := Dictionary.to_value_loop infer (Dictionary.to_dict obj) reg reg []
  let value := r.1.foldl (fun a p => insertA a p.1 (p.2.to_value PyValue.none)) r.2.2
  (r.2.1, value)

/-- Embeds `Dictionary.to_data`: compute `value = to_value(obj)` (growing the
registry), then emit one entry per entry of the grown registry, applying each
converter's `to_data` to `value.get(name, None)`. -/
def Dictionary.to_data (infer : PyValue → Conv) (reg : Registry) (obj : PyValue) :
    Registry × List (String × PyValue) :=
  let r := Dictionary.to_value infer reg obj
  let data := r.1.foldl
    (fun a p => insertA a p.1 (p.2.to_data ((lookupA r.2 p.1).getD PyValue.none))) []
  (r.1, data)

/-- Embeds `List.to_list`: coerce an object to a list.  A list is used as-is; a
string is stripped, then split on commas when it contains a comma and no
space, otherwise split on whitespace; `None` gives the empty list; any other
object gives a one-element list containing it. -/
def ListConv.to_list : PyValue → List PyValue
  | PyValue.list l => l
  | PyValue.str s =>
      let text := pyStrip s
      if pyContains text ',' && !(pyContains text ' ') then
        (pySplitOn ',' text).map PyValue.str
      else
        (pySplitWs text).map PyValue.str
  | PyValue.none => []
  | v => [v]

/-- The error raised when a container converter is misconfigured
(`NotImplementedError` in `yorm.base`, the spec's `ConfigurationError`). -/
inductive ConvError where
  | notImplemented : ConvError
  deriving DecidableEq

/-- Embeds `List.item_type`: the converter registered for all items, stored in the
registry under the reserved key `ALL = 'all'`. -/
def ListConv.item_type (reg : Registry) : Option Conv :=
  lookupA reg "all"

/-- Embeds `List.to_value`: fail when no item converter is registered, otherwise
coerce to a list and convert every item with the item converter. -/
def ListConv.to_value (reg : Registry) (obj : PyValue) :
    Except ConvError (List PyValue) :=
  match ListConv.item_type reg with
  | Option.none => Except.error ConvError.notImplemented
  | Option.some conv => Except.ok ((ListConv.to_list obj).map conv.to_value)

/-- Embeds `List.to_data`: compute `value = to_value(obj)`, then convert every item
with the item converter's `to_data`. -/
def ListConv.to_data (reg : Registry) (obj : PyValue) :
    Except ConvError (List PyValue) :=
  match ListConv.to_value reg obj with
  | Except.error e => Except.error e
  | Except.ok value =>
      match ListConv.item_type reg with
      | Option.none => Except.error ConvError.notImplemented
      | Option.some conv => Except.ok (value.map conv.to_data)

/-- Modelled from the spec: the `Mapper` state visible to `yorm.base.Mappable`
(the mapper module itself is not under `src/`): its auto flag and, as the
observable trace of document writes, a count of performed stores. -/
structure MapperState where
  auto : Bool
  storeCount : Nat

/-- Modelled from the spec: `Mapper.store` performs the document write
(counted here) and leaves automatic storage enabled, matching the batching
contract ("exit always flushes and always restores auto=true", where
`__exit__` is a bare `store` call) and `__exit__`'s own log message
"turning on automatic storage". -/
def MapperState.store (m : MapperState) : MapperState :=
  { auto := true, storeCount := m.storeCount + 1 }

/-- A `Mappable` instance: the two special yorm attributes (absent or
present), and its remaining attribute dictionary. -/
structure MObj where
  yorm_attrs : Option (List (String × Conv))
  yorm_mapper : Option MapperState
  dict : List (String × PyValue)

/-- The guard `hasattr(self, 'yorm_attrs') and name in self.yorm_attrs`
evaluated twice inside `Mappable.__setattr__`, returning the declared
converter when it passes. -/
def Mappable.declaredConv (o : MObj) (name : String) : Option Conv :=
  match o.yorm_attrs with
  | Option.some am => lookupA am name
  | Option.none => Option.none

/-- Embeds `Mappable.__setattr__`: when `yorm_attrs` exists and contains `name`,
convert the value through the declared converter before assignment; assign;
then store exactly when the name is mapped, a mapper exists and automatic
storage is on. -/
def Mappable.setattr (o : MObj) (name : String) (value : PyValue) : MObj :=
  let v : PyValue :=
    match Mappable.declaredConv o name with
    | Option.some conv => conv.to_value value
    | Option.none => value
  let o1 : MObj := { o with dict := insertA o.dict name v }
  match Mappable.declaredConv o name, o.yorm_mapper with
  | Option.some _, Option.some m =>
      if m.auto then { o1 with yorm_mapper := Option.some m.store } else o1
  | _, _ => o1

/-- Embeds `Mappable.__enter__`: turn off automatic storage. -/
def Mappable.enter (o : MObj) : MObj :=
  { o with yorm_mapper := o.yorm_mapper.map (fun m => { m with auto := false }) }

/-- Embeds `Mappable.__exit__`: a single `self.yorm_mapper.store(self)` call (which,
per the modelled `store`, also re-enables automatic storage). -/
def Mappable.exitRegion (o : MObj) : MObj :=
  { o with yorm_mapper := o.yorm_mapper.map MapperState.store }

/-- The result of an attribute read: a plain value, the mapper object, or the
`yorm_attrs` dictionary. -/
inductive AttrVal where
  | val : PyValue → AttrVal
  | mapperVal : MapperState → AttrVal
  | attrsVal : List (String × Conv) → AttrVal

/-- Embeds `object.__getattribute__` on a `MObj`: plain lookup of the attribute,
`AttributeError` (modelled as `Except.error ()`) when it is absent. -/
def objectGetattribute (o : MObj) (name : String) : Except Unit AttrVal :=
  if name = "yorm_mapper" then
    match o.yorm_mapper with
    | Option.some m => Except.ok (AttrVal.mapperVal m)
    | Option.none => Except.error ()
  else if name = "yorm_attrs" then
    match o.yorm_attrs with
    | Option.some am => Except.ok (AttrVal.attrsVal am)
    | Option.none => Except.error ()
  else
    match lookupA o.dict name with
    | Option.some v => Except.ok (AttrVal.val v)
    | Option.none => Except.error ()

/-- Embeds `Mappable.__getattribute__`: return the two special yorm attributes
directly; otherwise check `name in self.yorm_attrs` (an unguarded access that
raises `AttributeError` when `yorm_attrs` is absent), call
`self.yorm_mapper.retrieve(self)` for mapped names (the mapper's retrieve is
external, hence the `retrieve` parameter), and finally return the attribute.
Returns the read value together with the possibly retrieved object state. -/
def Mappable.getattribute (retrieve : MObj → MObj) (o : MObj) (name : String) :
    Except Unit (AttrVal × MObj) :=
  if name = "yorm_mapper" ∨ name = "yorm_attrs" then
    (objectGetattribute o name).map (fun v => (v, o))
  else
    match o.yorm_attrs with
    | Option.none => Except.error ()
    | Option.some am =>
        match lookupA am name with
        | Option.some _ =>
            match o.yorm_mapper with
            | Option.none => Except.error ()
            | Option.some _ =>
                let o2 := retrieve o
                (objectGetattribute o2 name).map (fun v => (v, o2))
        | Option.none =>
            (objectGetattribute o name).map (fun v => (v, o))

/-- The converter chosen for an item of the coerced mapping: the registry's
converter when the name is declared, the inferred one otherwise. -/
def chooseConv (infer : PyValue → Conv) (copy : Registry) (p : String × PyValue) : Conv :=
  match lookupA copy p.1 with
  | Option.some c => c
  | Option.none => infer p.2

/-- The registry produced by `Dictionary.to_value` on `obj`: the original
entries followed by converters inferred for the undeclared item names. -/
def grownRegistry (infer : PyValue → Conv) (reg : Registry) (obj : PyValue) : Registry :=
  reg ++ ((Dictionary.to_dict obj).filter (fun p => (lookupA reg p.1).isNone)).map
    (fun p => (p.1, infer p.2))

/-- The value mapping produced by `Dictionary.to_value` on `obj`: the
converted items followed by the materialized absent declared fields. -/
def valueMapping (infer : PyValue → Conv) (reg : Registry) (obj : PyValue) :
    List (String × PyValue) :=
  (Dictionary.to_dict obj).map
      (fun p => (p.1, (chooseConv infer reg p).to_value p.2))
    ++ (reg.filter
          (fun e => decide (e.1 ∉ (Dictionary.to_dict obj).map Prod.fst))).map
        (fun e => (e.1, e.2.to_value PyValue.none))

/-- The spec's Canonical Value invariant for a converter: applying `to_value`
twice behaves as applying it once. -/
def IdemToValue (c : Conv) : Prop :=
  ∀ x : PyValue, c.to_value (c.to_value x) = c.to_value x

/-- The identity converter, used to instantiate witnesses. -/
def idConv : Conv :=
  { to_value := fun x => x, to_data := fun x => x }

/-- A `Mappable` instance that owns a mapper but has no `yorm_attrs`
attribute. -/
def mapperOnlyObj : MObj :=
  { yorm_attrs := Option.none,
    yorm_mapper := Option.some { auto := true, storeCount := 0 },
    dict := [] }

/-! ### Association-list lemmas -/

theorem lookupA_nil {α : Type} (k : String) : lookupA ([] : List (String × α)) k = Option.none := rfl

theorem lookupA_cons {α : Type} (p : String × α) (l : List (String × α)) (k : String) :
    lookupA (p :: l) k = if p.1 = k then Option.some p.2 else lookupA l k := rfl

theorem lookupA_append {α : Type} (l₁ l₂ : List (String × α)) (k : String) :
    lookupA (l₁ ++ l₂) k =
      match lookupA l₁ k with
      | Option.some v => Option.some v
      | Option.none => lookupA l₂ k := by
  induction l₁ with
  | nil => simp [lookupA]
  | cons p rest ih =>
      by_cases h : p.1 = k <;> simp [lookupA, h, ih]

theorem lookupA_eq_none_iff {α : Type} (l : List (String × α)) (k : String) :
    lookupA l k = Option.none ↔ k ∉ l.map Prod.fst := by
  induction l with
  | nil => simp [lookupA]
  | cons p rest ih =>
      by_cases h : p.1 = k
      · simp [lookupA, h]
      · have h' : k ≠ p.1 := fun hc => h hc.symm
        simp [lookupA, h, h', ih]

theorem lookupA_isSome_iff {α : Type} (l : List (String × α)) (k : String) :
    (lookupA l k).isSome = true ↔ k ∈ l.map Prod.fst := by
  cases hl : lookupA l k with
  | none =>
      have hmem := (lookupA_eq_none_iff l k).mp hl
      simp [hmem]
  | some v =>
      simp only [Option.isSome_some, true_iff]
      by_contra hmem
      have hnone := (lookupA_eq_none_iff l k).mpr hmem
      rw [hnone] at hl
      exact Option.noConfusion hl

theorem lookupA_mem_nodup {α : Type} {l : List (String × α)} {e : String × α}
    (hmem : e ∈ l) (hnd : (l.map Prod.fst).Nodup) : lookupA l e.1 = Option.some e.2 := by
  induction l with
  | nil => simp at hmem
  | cons p rest ih =>
      rcases List.mem_cons.mp hmem with h | h
      · subst h; simp [lookupA]
      · have hne : p.1 ≠ e.1 := by
          simp only [List.map_cons, List.nodup_cons] at hnd
          intro hc
          exact hnd.1 (hc ▸ List.mem_map_of_mem Prod.fst h)
        simp only [List.map_cons, List.nodup_cons] at hnd
        simp [lookupA, hne, ih h hnd.2]

theorem removeA_of_lookup_none {α : Type} {l : List (String × α)} {k : String}
    (h : lookupA l k = Option.none) : removeA l k = l := by
  rw [lookupA_eq_none_iff] at h
  unfold removeA
  rw [List.filter_eq_self]
  intro e he
  simp only [ne_eq, decide_eq_true_eq]
  intro hc
  exact h (hc ▸ List.mem_map_of_mem Prod.fst he)

theorem lookupA_filter_ne {α : Type} (k n : String) (h : n ≠ k) :
    ∀ l : List (String × α),
      lookupA (l.filter (fun p => p.1 ≠ k)) n = lookupA l n
  | [] => rfl
  | p :: rest => by
      rw [List.filter_cons]
      by_cases hp : p.1 = k
      · have hpn : ¬p.1 = n := fun hc => h (hc.symm.trans hp)
        rw [if_neg (by simp [hp]), lookupA_filter_ne k n h rest, lookupA_cons,
          if_neg hpn]
      · rw [if_pos (by simp [hp])]
        simp only [lookupA_cons]
        rw [lookupA_filter_ne k n h rest]

theorem lookupA_removeA_ne {α : Type} (l : List (String × α)) (k n : String) (h : n ≠ k) :
    lookupA (removeA l k) n = lookupA l n :=
  lookupA_filter_ne k n h l

theorem insertA_of_lookup_none {α : Type} {l : List (String × α)} {k : String} (v : α)
    (h : lookupA l k = Option.none) : insertA l k v = l ++ [(k, v)] := by
  unfold insertA
  rw [h]
  rfl

/-- Keys of an association list built by mapping a key-preserving function. -/
theorem lookupA_map_keyed {α β : Type} {l : List (String × α)} {e : String × α}
    (f : String × α → β) (hmem : e ∈ l) (hnd : (l.map Prod.fst).Nodup) :
    lookupA (l.map (fun p => (p.1, f p))) e.1 = Option.some (f e) := by
  have : ((l.map (fun p => (p.1, f p))).map Prod.fst).Nodup := by
    simpa [List.map_map, Function.comp] using hnd
  exact lookupA_mem_nodup (List.mem_map_of_mem (fun p => (p.1, f p)) hmem) this

theorem lookupA_map_keyed_none {α β : Type} (l : List (String × α)) (k : String)
    (f : String × α → β) (h : lookupA l k = Option.none) :
    lookupA (l.map (fun p => (p.1, f p))) k = Option.none := by
  rw [lookupA_eq_none_iff] at h ⊢
  simpa [List.map_map, Function.comp] using h

/-! ### Characterization of `Dictionary.to_value` / `Dictionary.to_data` -/

theorem foldl_removeA {α : Type} (items : List (String × PyValue)) :
    ∀ l : List (String × α),
      items.foldl (fun c p => removeA c p.1) l =
        l.filter (fun e => decide (e.1 ∉ items.map Prod.fst)) := by
  induction items with
  | nil => intro l; simp
  | cons p rest ih =>
      intro l
      rw [List.foldl_cons, ih (removeA l p.1)]
      unfold removeA
      rw [List.filter_filter]
      apply List.filter_congr
      intro e _
      by_cases h1 : e.1 = p.1 <;> by_cases h2 : e.1 ∈ rest.map Prod.fst <;>
        simp [h1, h2]

theorem foldl_insertA {α β : Type} (f : String × α → β) :
    ∀ (l : List (String × α)) (acc : List (String × β)),
      (∀ p ∈ l, lookupA acc p.1 = Option.none) →
      (l.map Prod.fst).Nodup →
      l.foldl (fun a p => insertA a p.1 (f p)) acc =
        acc ++ l.map (fun p => (p.1, f p)) := by
  intro l
  induction l with
  | nil => intro acc _ _; simp
  | cons p rest ih =>
      intro acc hacc hnd
      simp only [List.map_cons, List.nodup_cons] at hnd
      rw [List.foldl_cons,
        insertA_of_lookup_none (f p) (hacc p (List.mem_cons_self p rest))]
      rw [ih (acc ++ [(p.1, f p)]) ?_ hnd.2]
      · simp
      · intro q hq
        rw [lookupA_append, hacc q (List.mem_cons_of_mem p hq)]
        have hne : ¬p.1 = q.1 := by
          intro hc
          exact hnd.1 (hc ▸ List.mem_map_of_mem Prod.fst hq)
        simp [lookupA, hne]

theorem to_value_loop_eq (infer : PyValue → Conv) :
    ∀ (items : List (String × PyValue)) (copy reg : Registry)
      (acc : List (String × PyValue)),
      (items.map Prod.fst).Nodup →
      (∀ p ∈ items, lookupA acc p.1 = Option.none) →
      (∀ p ∈ items, lookupA copy p.1 = Option.none →
        lookupA reg p.1 = Option.none) →
      Dictionary.to_value_loop infer items copy reg acc =
        (items.foldl (fun c p => removeA c p.1) copy,
         reg ++ (items.filter (fun p => (lookupA copy p.1).isNone)).map
           (fun p => (p.1, infer p.2)),
         acc ++ items.map (fun p => (p.1, (chooseConv infer copy p).to_value p.2)))
  | [], copy, reg, acc, _, _, _ => by
      simp [Dictionary.to_value_loop]
  | (name, data) :: rest, copy, reg, acc, hnd, hacc, hcr => by
      have hnd' := hnd
      simp only [List.map_cons, List.nodup_cons] at hnd'
      have hnamerest : ∀ q ∈ rest, ¬(q : String × PyValue).1 = name := by
        intro q hq hc
        exact hnd'.1 (hc ▸ List.mem_map_of_mem Prod.fst hq)
      cases hcn : lookupA copy name with
      | some conv =>
          rw [Dictionary.to_value_loop]
          rw [hcn]
          dsimp only
          rw [insertA_of_lookup_none (conv.to_value data)
            (hacc (name, data) (List.mem_cons_self _ _))]
          rw [to_value_loop_eq infer rest (removeA copy name) reg
            (acc ++ [(name, conv.to_value data)]) hnd'.2 ?_ ?_]
          · simp only [Prod.mk.injEq]
            refine ⟨rfl, ?_, ?_⟩
            · congr 1
              rw [List.filter_cons]
              rw [if_neg (by simp [hcn])]
              congr 1
              apply List.filter_congr
              intro q hq
              rw [lookupA_removeA_ne copy name q.1 (hnamerest q hq)]
            · rw [List.map_cons]
              have hchoose : chooseConv infer copy (name, data) = conv := by
                unfold chooseConv
                rw [hcn]
              rw [List.append_assoc, List.singleton_append, hchoose]
              congr 2
              apply List.map_congr_left
              intro q hq
              unfold chooseConv
              rw [lookupA_removeA_ne copy name q.1 (hnamerest q hq)]
          · intro q hq
            have hnq : ¬name = q.1 := fun hc => hnamerest q hq (Eq.symm hc)
            rw [lookupA_append, hacc q (List.mem_cons_of_mem _ hq)]
            simp [lookupA, hnq]
          · intro q hq hq2
            rw [lookupA_removeA_ne copy name q.1 (hnamerest q hq)] at hq2
            exact hcr q (List.mem_cons_of_mem _ hq) hq2
      | none =>
          rw [Dictionary.to_value_loop]
          rw [hcn]
          dsimp only
          have hregnone : lookupA reg name = Option.none :=
            hcr (name, data) (List.mem_cons_self _ _) hcn
          rw [insertA_of_lookup_none (infer data) hregnone]
          rw [insertA_of_lookup_none ((infer data).to_value data)
            (hacc (name, data) (List.mem_cons_self _ _))]
          rw [to_value_loop_eq infer rest copy (reg ++ [(name, infer data)])
            (acc ++ [(name, (infer data).to_value data)]) hnd'.2 ?_ ?_]
          · simp only [Prod.mk.injEq]
            refine ⟨?_, ?_, ?_⟩
            · rw [List.foldl_cons, removeA_of_lookup_none hcn]
            · rw [List.filter_cons, if_pos (by simp [hcn]), List.map_cons,
                List.append_assoc, List.singleton_append]
            · have hchoose : chooseConv infer copy (name, data) = infer data := by
                unfold chooseConv
                rw [hcn]
              rw [List.map_cons, hchoose, List.append_assoc, List.singleton_append]
          · intro q hq
            have hnq : ¬name = q.1 := fun hc => hnamerest q hq (Eq.symm hc)
            rw [lookupA_append, hacc q (List.mem_cons_of_mem _ hq)]
            simp [lookupA, hnq]
          · intro q hq hq2
            have hnq : ¬name = q.1 := fun hc => hnamerest q hq (Eq.symm hc)
            rw [lookupA_append, hcr q (List.mem_cons_of_mem _ hq) hq2]
            simp [lookupA, hnq]

theorem lookupA_mem {α : Type} {l : List (String × α)} {k : String} {v : α} :
    lookupA l k = Option.some v → (k, v) ∈ l := by
  induction l with
  | nil => intro h; exact absurd h (by simp [lookupA])
  | cons p rest ih =>
      intro h
      rw [lookupA_cons] at h
      by_cases hp : p.1 = k
      · rw [if_pos hp] at h
        subst hp
        cases h
        exact List.mem_cons_self p rest
      · rw [if_neg hp] at h
        exact List.mem_cons_of_mem p (ih h)

theorem to_value_eq (infer : PyValue → Conv) (reg : Registry) (obj : PyValue)
    (hreg : (reg.map Prod.fst).Nodup)
    (hobj : ((Dictionary.to_dict obj).map Prod.fst).Nodup) :
    Dictionary.to_value infer reg obj =
      (grownRegistry infer reg obj, valueMapping infer reg obj) := by
  unfold Dictionary.to_value
  rw [to_value_loop_eq infer (Dictionary.to_dict obj) reg reg [] hobj
    (fun p _ => rfl) (fun p _ h => h)]
  dsimp only
  rw [foldl_removeA]
  simp only [List.nil_append, Prod.mk.injEq]
  refine ⟨rfl, ?_⟩
  have hfkeys :
      ((List.filter (fun e => decide (e.1 ∉ (Dictionary.to_dict obj).map Prod.fst))
        reg).map Prod.fst).Nodup :=
    ((List.filter_sublist reg).map Prod.fst).nodup hreg
  refine (foldl_insertA (fun p => p.2.to_value PyValue.none) _ _ ?_ hfkeys).trans rfl
  intro p hp
  have hnotin : p.1 ∉ (Dictionary.to_dict obj).map Prod.fst := by
    have := List.of_mem_filter hp
    simpa using this
  rw [lookupA_eq_none_iff]
  intro hc
  apply hnotin
  simpa [List.map_map, Function.comp] using hc

theorem to_data_eq (infer : PyValue → Conv) (reg : Registry) (obj : PyValue)
    (hreg : (reg.map Prod.fst).Nodup)
    (hobj : ((Dictionary.to_dict obj).map Prod.fst).Nodup)
    (hgrownnd : ((grownRegistry infer reg obj).map Prod.fst).Nodup) :
    Dictionary.to_data infer reg obj =
      (grownRegistry infer reg obj,
       (grownRegistry infer reg obj).map
         (fun e => (e.1,
           e.2.to_data ((lookupA (valueMapping infer reg obj) e.1).getD
             PyValue.none)))) := by
  unfold Dictionary.to_data
  rw [to_value_eq infer reg obj hreg hobj]
  dsimp only
  simp only [Prod.mk.injEq]
  refine ⟨trivial, ?_⟩
  exact (foldl_insertA
    (fun e => e.2.to_data ((lookupA (valueMapping infer reg obj) e.1).getD
      PyValue.none)) _ [] (fun p _ => rfl) hgrownnd).trans (by rw [List.nil_append])

theorem map_fst_map_keyed {α β : Type} (l : List (String × α)) (f : String × α → β) :
    (l.map (fun p => (p.1, f p))).map Prod.fst = l.map Prod.fst := by
  simp [List.map_map, Function.comp]

theorem grownRegistry_keys (infer : PyValue → Conv) (reg : Registry) (obj : PyValue) :
    (grownRegistry infer reg obj).map Prod.fst =
      reg.map Prod.fst
        ++ ((Dictionary.to_dict obj).filter
              (fun p => (lookupA reg p.1).isNone)).map Prod.fst := by
  unfold grownRegistry
  rw [List.map_append, map_fst_map_keyed]

theorem valueMapping_keys (infer : PyValue → Conv) (reg : Registry) (obj : PyValue) :
    (valueMapping infer reg obj).map Prod.fst =
      (Dictionary.to_dict obj).map Prod.fst
        ++ (reg.filter
              (fun e => decide
                (e.1 ∉ (Dictionary.to_dict obj).map Prod.fst))).map Prod.fst := by
  unfold valueMapping
  rw [List.map_append, map_fst_map_keyed, map_fst_map_keyed]

theorem mem_grownRegistry_keys_iff (infer : PyValue → Conv) (reg : Registry)
    (obj : PyValue) (n : String) :
    n ∈ (grownRegistry infer reg obj).map Prod.fst ↔
      n ∈ reg.map Prod.fst ∨ n ∈ (Dictionary.to_dict obj).map Prod.fst := by
  rw [grownRegistry_keys, List.mem_append]
  constructor
  · rintro (h | h)
    · exact Or.inl h
    · obtain ⟨p, hp, rfl⟩ := List.mem_map.mp h
      exact Or.inr (List.mem_map_of_mem Prod.fst (List.mem_of_mem_filter hp))
  · rintro (h | h)
    · exact Or.inl h
    · by_cases hr : n ∈ reg.map Prod.fst
      · exact Or.inl hr
      · obtain ⟨p, hp, rfl⟩ := List.mem_map.mp h
        refine Or.inr (List.mem_map_of_mem Prod.fst (List.mem_filter.mpr ⟨hp, ?_⟩))
        have h0 : lookupA reg p.1 = Option.none := (lookupA_eq_none_iff _ _).mpr hr
        simp [h0]

theorem mem_valueMapping_keys_iff (infer : PyValue → Conv) (reg : Registry)
    (obj : PyValue) (n : String) :
    n ∈ (valueMapping infer reg obj).map Prod.fst ↔
      n ∈ (Dictionary.to_dict obj).map Prod.fst ∨ n ∈ reg.map Prod.fst := by
  rw [valueMapping_keys, List.mem_append]
  constructor
  · rintro (h | h)
    · exact Or.inl h
    · obtain ⟨p, hp, rfl⟩ := List.mem_map.mp h
      exact Or.inr (List.mem_map_of_mem Prod.fst (List.mem_of_mem_filter hp))
  · rintro (h | h)
    · exact Or.inl h
    · by_cases hi : n ∈ (Dictionary.to_dict obj).map Prod.fst
      · exact Or.inl hi
      · obtain ⟨p, hp, rfl⟩ := List.mem_map.mp h
        refine Or.inr (List.mem_map_of_mem Prod.fst (List.mem_filter.mpr ⟨hp, ?_⟩))
        simpa using hi

theorem grownRegistry_keys_nodup (infer : PyValue → Conv) (reg : Registry)
    (obj : PyValue) (hreg : (reg.map Prod.fst).Nodup)
    (hobj : ((Dictionary.to_dict obj).map Prod.fst).Nodup) :
    ((grownRegistry infer reg obj).map Prod.fst).Nodup := by
  rw [grownRegistry_keys, List.nodup_append]
  refine ⟨hreg, ((List.filter_sublist _).map Prod.fst).nodup hobj, ?_⟩
  intro a ha hb
  obtain ⟨p, hp, rfl⟩ := List.mem_map.mp hb
  have h2 := (List.mem_filter.mp hp).2
  rw [Option.isNone_iff_eq_none] at h2
  exact absurd ha ((lookupA_eq_none_iff _ _).mp h2)

theorem valueMapping_keys_nodup (infer : PyValue → Conv) (reg : Registry)
    (obj : PyValue) (hreg : (reg.map Prod.fst).Nodup)
    (hobj : ((Dictionary.to_dict obj).map Prod.fst).Nodup) :
    ((valueMapping infer reg obj).map Prod.fst).Nodup := by
  rw [valueMapping_keys, List.nodup_append]
  refine ⟨hobj, ((List.filter_sublist _).map Prod.fst).nodup hreg, ?_⟩
  intro a ha hb
  obtain ⟨p, hp, rfl⟩ := List.mem_map.mp hb
  have h2 := (List.mem_filter.mp hp).2
  simp only [decide_eq_true_eq] at h2
  exact h2 ha

theorem lookupA_grown_of_reg {infer : PyValue → Conv} {reg : Registry}
    {obj : PyValue} {n : String} {c : Conv} (h : lookupA reg n = Option.some c) :
    lookupA (grownRegistry infer reg obj) n = Option.some c := by
  unfold grownRegistry
  rw [lookupA_append, h]

theorem lookupA_grown_of_inferred {infer : PyValue → Conv} {reg : Registry}
    {obj : PyValue} {q : String × PyValue}
    (hq : q ∈ Dictionary.to_dict obj) (h : lookupA reg q.1 = Option.none)
    (hobj : ((Dictionary.to_dict obj).map Prod.fst).Nodup) :
    lookupA (grownRegistry infer reg obj) q.1 = Option.some (infer q.2) := by
  unfold grownRegistry
  rw [lookupA_append, h]
  have hfnd : (((Dictionary.to_dict obj).filter
      (fun p => (lookupA reg p.1).isNone)).map Prod.fst).Nodup :=
    ((List.filter_sublist _).map Prod.fst).nodup hobj
  have hqf : q ∈ (Dictionary.to_dict obj).filter
      (fun p => (lookupA reg p.1).isNone) :=
    List.mem_filter.mpr ⟨hq, by simp [h]⟩
  exact lookupA_map_keyed (fun p => infer p.2) hqf hfnd

theorem lookupA_grown_chooseConv {infer : PyValue → Conv} {reg : Registry}
    {obj : PyValue} {q : String × PyValue}
    (hq : q ∈ Dictionary.to_dict obj)
    (hobj : ((Dictionary.to_dict obj).map Prod.fst).Nodup) :
    lookupA (grownRegistry infer reg obj) q.1 =
      Option.some (chooseConv infer reg q) := by
  unfold chooseConv
  cases h : lookupA reg q.1 with
  | some c => exact lookupA_grown_of_reg h
  | none => exact lookupA_grown_of_inferred hq h hobj

theorem lookupA_valueMapping_item {infer : PyValue → Conv} {reg : Registry}
    {obj : PyValue} {q : String × PyValue}
    (hq : q ∈ Dictionary.to_dict obj)
    (hobj : ((Dictionary.to_dict obj).map Prod.fst).Nodup) :
    lookupA (valueMapping infer reg obj) q.1 =
      Option.some ((chooseConv infer reg q).to_value q.2) := by
  unfold valueMapping
  rw [lookupA_append,
    lookupA_map_keyed (fun p => (chooseConv infer reg p).to_value p.2) hq hobj]

theorem lookupA_valueMapping_absent {infer : PyValue → Conv} {reg : Registry}
    {obj : PyValue} {n : String} {c : Conv}
    (hn : n ∉ (Dictionary.to_dict obj).map Prod.fst)
    (hc : lookupA reg n = Option.some c)
    (hreg : (reg.map Prod.fst).Nodup) :
    lookupA (valueMapping infer reg obj) n =
      Option.some (c.to_value PyValue.none) := by
  unfold valueMapping
  rw [lookupA_append]
  have hleft : lookupA ((Dictionary.to_dict obj).map
      (fun p => (p.1, (chooseConv infer reg p).to_value p.2))) n = Option.none := by
    rw [lookupA_eq_none_iff, map_fst_map_keyed]
    exact hn
  rw [hleft]
  have hmf : (n, c) ∈ reg.filter
      (fun e => decide (e.1 ∉ (Dictionary.to_dict obj).map Prod.fst)) :=
    List.mem_filter.mpr ⟨lookupA_mem hc, by simpa using hn⟩
  have hfnd : ((reg.filter
      (fun e => decide (e.1 ∉ (Dictionary.to_dict obj).map Prod.fst))).map
        Prod.fst).Nodup :=
    ((List.filter_sublist _).map Prod.fst).nodup hreg
  exact lookupA_map_keyed (fun e => e.2.to_value PyValue.none) hmf hfnd

theorem valueMapping_entry {infer : PyValue → Conv} {reg : Registry} {obj : PyValue}
    (hreg : (reg.map Prod.fst).Nodup)
    (hobj : ((Dictionary.to_dict obj).map Prod.fst).Nodup)
    (hidem : ∀ n c, lookupA reg n = Option.some c → IdemToValue c)
    (hinfer : ∀ d, IdemToValue (infer d))
    {p : String × PyValue} (hp : p ∈ valueMapping infer reg obj) :
    ∃ c : Conv, lookupA (grownRegistry infer reg obj) p.1 = Option.some c ∧
      c.to_value p.2 = p.2 := by
  unfold valueMapping at hp
  rcases List.mem_append.mp hp with h | h
  · obtain ⟨q, hq, rfl⟩ := List.mem_map.mp h
    refine ⟨chooseConv infer reg q, lookupA_grown_chooseConv hq hobj, ?_⟩
    have hidem2 : IdemToValue (chooseConv infer reg q) := by
      unfold chooseConv
      cases h2 : lookupA reg q.1 with
      | some c => exact hidem q.1 c h2
      | none => exact hinfer q.2
    exact hidem2 q.2
  · obtain ⟨e, he, rfl⟩ := List.mem_map.mp h
    have hlr : lookupA reg e.1 = Option.some e.2 :=
      lookupA_mem_nodup (List.mem_of_mem_filter he) hreg
    exact ⟨e.2, lookupA_grown_of_reg hlr, hidem e.1 e.2 hlr PyValue.none⟩

theorem grownRegistry_of_declared (infer : PyValue → Conv) (reg : Registry)
    (obj : PyValue)
    (h : ∀ n ∈ (Dictionary.to_dict obj).map Prod.fst, n ∈ reg.map Prod.fst) :
    grownRegistry infer reg obj = reg := by
  unfold grownRegistry
  have hnil : (Dictionary.to_dict obj).filter
      (fun p => (lookupA reg p.1).isNone) = [] := by
    rw [List.filter_eq_nil_iff]
    intro p hp hc
    have hmem := h p.1 (List.mem_map_of_mem Prod.fst hp)
    rw [Option.isNone_iff_eq_none] at hc
    rw [← lookupA_isSome_iff reg p.1] at hmem
    rw [hc] at hmem
    simp at hmem
  rw [hnil]
  simp

theorem valueMapping_second (infer : PyValue → Conv) (reg : Registry) (obj : PyValue)
    (hreg : (reg.map Prod.fst).Nodup)
    (hobj : ((Dictionary.to_dict obj).map Prod.fst).Nodup)
    (hidem : ∀ n c, lookupA reg n = Option.some c → IdemToValue c)
    (hinfer : ∀ d, IdemToValue (infer d)) :
    valueMapping infer (grownRegistry infer reg obj)
      (PyValue.dict (valueMapping infer reg obj)) = valueMapping infer reg obj := by
  have hdict : Dictionary.to_dict (PyValue.dict (valueMapping infer reg obj)) =
      valueMapping infer reg obj := rfl
  have hfilter : (grownRegistry infer reg obj).filter
      (fun e => decide (e.1 ∉ (Dictionary.to_dict
        (PyValue.dict (valueMapping infer reg obj))).map Prod.fst)) = [] := by
    rw [List.filter_eq_nil_iff]
    intro e he hc
    simp only [hdict, decide_eq_true_eq] at hc
    apply hc
    rw [mem_valueMapping_keys_iff]
    have hg : e.1 ∈ (grownRegistry infer reg obj).map Prod.fst :=
      List.mem_map_of_mem Prod.fst he
    rw [mem_grownRegistry_keys_iff] at hg
    tauto
  conv_lhs => rw [valueMapping]
  rw [hfilter, hdict]
  simp only [List.map_nil, List.append_nil]
  have hmap : ∀ p ∈ valueMapping infer reg obj,
      (p.1, (chooseConv infer (grownRegistry infer reg obj) p).to_value p.2) = p := by
    intro p hp
    obtain ⟨c, hc, hcv⟩ := valueMapping_entry hreg hobj hidem hinfer hp
    have hcc : chooseConv infer (grownRegistry infer reg obj) p = c := by
      unfold chooseConv
      rw [hc]
    rw [hcc, hcv]
  rw [List.map_congr_left hmap]
  exact List.map_id _

theorem to_value_second_pass (infer : PyValue → Conv) (reg : Registry) (obj : PyValue)
    (hreg : (reg.map Prod.fst).Nodup)
    (hobj : ((Dictionary.to_dict obj).map Prod.fst).Nodup)
    (hidem : ∀ n c, lookupA reg n = Option.some c → IdemToValue c)
    (hinfer : ∀ d, IdemToValue (infer d)) :
    Dictionary.to_value infer (grownRegistry infer reg obj)
      (PyValue.dict (valueMapping infer reg obj)) =
    (grownRegistry infer reg obj, valueMapping infer reg obj) := by
  have hgnd := grownRegistry_keys_nodup infer reg obj hreg hobj
  have hvnd := valueMapping_keys_nodup infer reg obj hreg hobj
  rw [to_value_eq infer _ (PyValue.dict (valueMapping infer reg obj)) hgnd
    (by exact hvnd)]
  simp only [Prod.mk.injEq]
  refine ⟨grownRegistry_of_declared infer _ _ ?_,
    valueMapping_second infer reg obj hreg hobj hidem hinfer⟩
  intro n hn
  have : n ∈ (valueMapping infer reg obj).map Prod.fst := hn
  rw [mem_valueMapping_keys_iff] at this
  rw [mem_grownRegistry_keys_iff]
  tauto

/-! ### Lemmas about the `Mappable` protocol -/

theorem setattr_mapper_of_auto_off (o : MObj) (name : String) (v : PyValue)
    (mm : MapperState) (hm : o.yorm_mapper = Option.some mm)
    (hauto : mm.auto = false) :
    (Mappable.setattr o name v).yorm_mapper = Option.some mm := by
  unfold Mappable.setattr
  cases hd : Mappable.declaredConv o name with
  | none => cases hmo : o.yorm_mapper <;> simp [hmo ▸ hm]
  | some conv => simp [hm, hauto]

/-- C4 — Exiting the scoped batching region always performs exactly one store
and always restores auto mode to true, regardless of how many attribute
writes (including zero) occurred inside the region and regardless of whether
auto mode was already off before entry.  (The `Mapper` itself is not under
`src/`; its `store` is modelled from the spec as counting one document write
and re-enabling automatic storage.) -/
theorem claim_C4_batching (o : MObj) (m : MapperState)
    (writes : List (String × PyValue)) (hm : o.yorm_mapper = Option.some m) :
    (writes.foldl (fun s p => Mappable.setattr s p.1 p.2)
        (Mappable.enter o)).yorm_mapper =
      Option.some { auto := false, storeCount := m.storeCount } ∧
    (Mappable.exitRegion (writes.foldl (fun s p => Mappable.setattr s p.1 p.2)
        (Mappable.enter o))).yorm_mapper =
      Option.some { auto := true, storeCount := m.storeCount + 1 } := by
  have henter : (Mappable.enter o).yorm_mapper =
      Option.some { auto := false, storeCount := m.storeCount } := by
    unfold Mappable.enter
    rw [hm]
    rfl
  have hpres : ∀ (ws : List (String × PyValue)) (s : MObj),
      s.yorm_mapper = Option.some { auto := false, storeCount := m.storeCount } →
      (ws.foldl (fun s p => Mappable.setattr s p.1 p.2) s).yorm_mapper =
        Option.some { auto := false, storeCount := m.storeCount } := by
    intro ws
    induction ws with
    | nil => intro s hs; exact hs
    | cons w rest ih =>
        intro s hs
        rw [List.foldl_cons]
        exact ih _ (setattr_mapper_of_auto_off s w.1 w.2 _ hs rfl)
  have hin := hpres writes (Mappable.enter o) henter
  refine ⟨hin, ?_⟩
  unfold Mappable.exitRegion
  rw [hin]
  rfl

/-- C4 witness: a region with one write around a mapper that starts with
auto mode off and two stores already performed. -/
theorem claim_C4_batching_witness :
    ({ yorm_attrs := Option.some [("x", idConv)],
       yorm_mapper := Option.some { auto := false, storeCount := 2 },
       dict := [] } : MObj).yorm_mapper =
        Option.some { auto := false, storeCount := 2 } ∧
    ((([("x", PyValue.int 7)] : List (String × PyValue)).foldl
        (fun s p => Mappable.setattr s p.1 p.2)
        (Mappable.enter
          { yorm_attrs := Option.some [("x", idConv)],
            yorm_mapper := Option.some { auto := false, storeCount := 2 },
            dict := [] })).yorm_mapper =
      Option.some { auto := false, storeCount := 2 } ∧
    (Mappable.exitRegion (([("x", PyValue.int 7)] :
        List (String × PyValue)).foldl
        (fun s p => Mappable.setattr s p.1 p.2)
        (Mappable.enter
          { yorm_attrs := Option.some [("x", idConv)],
            yorm_mapper := Option.some { auto := false, storeCount := 2 },
            dict := [] }))).yorm_mapper =
      Option.some { auto := true, storeCount := 3 }) :=
  ⟨rfl, claim_C4_batching _ { auto := false, storeCount := 2 } _ rfl⟩

/-- C5 — Writing a declared attribute converts the value through the field
converter's `to_value` before assignment and stores exactly when auto mode is
enabled; writing an undeclared attribute assigns unmodified and never
stores. -/
theorem claim_C5_setattr (o : MObj) (name : String) (v : PyValue) :
    (∀ c m, Mappable.declaredConv o name = Option.some c →
       o.yorm_mapper = Option.some m →
       (Mappable.setattr o name v).dict = insertA o.dict name (c.to_value v) ∧
       (m.auto = true →
         (Mappable.setattr o name v).yorm_mapper = Option.some m.store) ∧
       (m.auto = false →
         (Mappable.setattr o name v).yorm_mapper = Option.some m)) ∧
    (Mappable.declaredConv o name = Option.none →
       (Mappable.setattr o name v).dict = insertA o.dict name v ∧
       (Mappable.setattr o name v).yorm_mapper = o.yorm_mapper) := by
  constructor
  · intro c m hc hm
    unfold Mappable.setattr
    rw [hc, hm]
    refine ⟨?_, ?_, ?_⟩
    · cases hauto : m.auto <;> simp [hauto]
    · intro hauto; simp [hauto]
    · intro hauto; simp [hauto]
  · intro hc
    unfold Mappable.setattr
    rw [hc]
    cases hmo : o.yorm_mapper <;> simp [hmo]

/-- C5 witness: a declared write with auto on, a declared write with auto
off, and an undeclared write, all on concrete objects. -/
theorem claim_C5_setattr_witness :
    ((Mappable.setattr
        { yorm_attrs := Option.some [("x", idConv)],
          yorm_mapper := Option.some { auto := true, storeCount := 0 },
          dict := [] } "x" (PyValue.int 7)).dict =
      insertA [] "x" (idConv.to_value (PyValue.int 7)) ∧
    (Mappable.setattr
        { yorm_attrs := Option.some [("x", idConv)],
          yorm_mapper := Option.some { auto := true, storeCount := 0 },
          dict := [] } "x" (PyValue.int 7)).yorm_mapper =
      Option.some (MapperState.store { auto := true, storeCount := 0 })) ∧
    ((Mappable.setattr
        { yorm_attrs := Option.some [("x", idConv)],
          yorm_mapper := Option.some { auto := true, storeCount := 0 },
          dict := [] } "y" (PyValue.int 7)).dict =
      insertA [] "y" (PyValue.int 7) ∧
    (Mappable.setattr
        { yorm_attrs := Option.some [("x", idConv)],
          yorm_mapper := Option.some { auto := true, storeCount := 0 },
          dict := [] } "y" (PyValue.int 7)).yorm_mapper =
      Option.some { auto := true, storeCount := 0 }) := by
  constructor
  · have h := (claim_C5_setattr
      { yorm_attrs := Option.some [("x", idConv)],
        yorm_mapper := Option.some { auto := true, storeCount := 0 },
        dict := [] } "x" (PyValue.int 7)).1 idConv
      { auto := true, storeCount := 0 } rfl rfl
    exact ⟨h.1, h.2.1 rfl⟩
  · have h := (claim_C5_setattr
      { yorm_attrs := Option.some [("x", idConv)],
        yorm_mapper := Option.some { auto := true, storeCount := 0 },
        dict := [] } "y" (PyValue.int 7)).2 rfl
    exact ⟨h.1, h.2⟩

/-- C9 counterexample — the claim says reading *any* attribute whatsoever on
a `Mappable` instance without `yorm_attrs` raises `AttributeError`; but
`yorm_mapper` is special-cased before the unguarded membership check, so
reading it succeeds whenever it is present. -/
theorem claim_C9_counterexample :
    mapperOnlyObj.yorm_attrs = Option.none ∧
    Mappable.getattribute (fun o => o) mapperOnlyObj "yorm_mapper" =
      Except.ok (AttrVal.mapperVal { auto := true, storeCount := 0 },
        mapperOnlyObj) :=
  ⟨rfl, rfl⟩

/-- C9 (amended) — On a `Mappable` instance without `yorm_attrs`, reading any
attribute other than `yorm_mapper` raises `AttributeError` (the membership
check accesses `yorm_attrs` unguarded, and reading `yorm_attrs` itself fails
as absent), while writing any attribute succeeds and assigns the value
unmodified with no store. -/
theorem claim_C9_amended (o : MObj) (retrieve : MObj → MObj)
    (h : o.yorm_attrs = Option.none) :
    (∀ name, name ≠ "yorm_mapper" →
       Mappable.getattribute retrieve o name = Except.error ()) ∧
    (∀ name v, Mappable.setattr o name v =
       { o with dict := insertA o.dict name v }) := by
  constructor
  · intro name hname
    unfold Mappable.getattribute
    by_cases ha : name = "yorm_attrs"
    · rw [if_pos (Or.inr ha)]
      unfold objectGetattribute
      rw [if_neg hname, if_pos ha, h]
      rfl
    · have hno : ¬(name = "yorm_mapper" ∨ name = "yorm_attrs") := by
        intro hc
        rcases hc with hc | hc
        · exact hname hc
        · exact ha hc
      rw [if_neg hno, h]
  · intro name v
    have hd : Mappable.declaredConv o name = Option.none := by
      unfold Mappable.declaredConv
      rw [h]
    unfold Mappable.setattr
    rw [hd]

/-- C9 witness: reading an ordinary attribute on a concrete instance without
`yorm_attrs` errors, and writing it assigns unmodified. -/
theorem claim_C9_amended_witness :
    Mappable.getattribute (fun o => o) mapperOnlyObj "count" =
      Except.error () ∧
    Mappable.setattr mapperOnlyObj "count" (PyValue.int 1) =
      { mapperOnlyObj with
        dict := insertA mapperOnlyObj.dict "count" (PyValue.int 1) } :=
  ⟨(claim_C9_amended mapperOnlyObj (fun o => o) rfl).1 "count" (by decide),
   (claim_C9_amended mapperOnlyObj (fun o => o) rfl).2 "count" (PyValue.int 1)⟩

/-! ### Coercion claims -/

theorem to_dict_str (s : String) :
    Dictionary.to_dict (PyValue.str s) =
      match pySplitOn '=' (pyStrip s) with
      | [k, v] => [(k, PyValue.str v)]
      | _ => [(pyStrip s, PyValue.none)] := rfl

theorem to_list_str (s : String) :
    ListConv.to_list (PyValue.str s) =
      if pyContains (pyStrip s) ',' && !pyContains (pyStrip s) ' ' then
        (pySplitOn ',' (pyStrip s)).map PyValue.str
      else
        (pySplitWs (pyStrip s)).map PyValue.str := rfl

/-- C6 — `Dictionary.to_dict` accepts a native mapping as-is, maps a string
of the form `key=value` to `{key: value}` (so `"key=42"` gives
`{"key": "42"}`), maps any other (stripped) bare string to `{string: null}`,
and maps `None` to the empty mapping. -/
theorem claim_C6_to_dict :
    (∀ m, Dictionary.to_dict (PyValue.dict m) = m) ∧
    (∀ s k v, pySplitOn '=' (pyStrip s) = [k, v] →
       Dictionary.to_dict (PyValue.str s) = [(k, PyValue.str v)]) ∧
    Dictionary.to_dict (PyValue.str "key=42") = [("key", PyValue.str "42")] ∧
    (∀ s, (pySplitOn '=' (pyStrip s)).length ≠ 2 →
       Dictionary.to_dict (PyValue.str s) = [(pyStrip s, PyValue.none)]) ∧
    Dictionary.to_dict PyValue.none = [] := by
  refine ⟨fun m => rfl, ?_, rfl, ?_, rfl⟩
  · intro s k v hsp
    rw [to_dict_str, hsp]
  · intro s hlen
    rw [to_dict_str]
    cases hsp : pySplitOn '=' (pyStrip s) with
    | nil => rfl
    | cons a t =>
        cases t with
        | nil => rfl
        | cons b t2 =>
            cases t2 with
            | nil => exact absurd (by rw [hsp]; rfl) hlen
            | cons c t3 => rfl

/-- C6 witness: the key=value and bare-string cases at concrete inputs. -/
theorem claim_C6_to_dict_witness :
    Dictionary.to_dict (PyValue.dict [("k", PyValue.int 1)]) =
      [("k", PyValue.int 1)] ∧
    Dictionary.to_dict (PyValue.str " a = b ") = [("a ", PyValue.str " b")] ∧
    Dictionary.to_dict (PyValue.str "a=b=c") = [("a=b=c", PyValue.none)] :=
  ⟨claim_C6_to_dict.1 [("k", PyValue.int 1)],
   claim_C6_to_dict.2.1 " a = b " "a " " b" rfl,
   claim_C6_to_dict.2.2.2.1 "a=b=c" (by decide)⟩

/-- C7 counterexample — the claim says a string containing a comma and no
*whitespace* is split on commas and any other string is split on whitespace;
`"a,b\tc"` contains a comma and a tab, so the claim predicts the
whitespace-split `["a,b", "c"]`, but the code only tests for a *space*
character and splits on commas, returning `["a", "b\tc"]`. -/
theorem claim_C7_counterexample :
    ListConv.to_list (PyValue.str "a,b\tc") =
      [PyValue.str "a", PyValue.str "b\tc"] ∧
    ListConv.to_list (PyValue.str "a,b\tc") ≠
      (pySplitWs (pyStrip "a,b\tc")).map PyValue.str := by
  refine ⟨rfl, ?_⟩
  intro h
  have h2 : ([PyValue.str "a", PyValue.str "b\tc"] : List PyValue) =
      [PyValue.str "a,b", PyValue.str "c"] := h
  injection h2 with hh _
  injection hh with hs
  exact absurd hs (by decide)

/-- C7 (amended) — `List.to_list` uses a native list as-is; splits a string
containing a comma and no *space character* on commas; splits any other
string on whitespace; maps `None` to the empty list; and maps any other
scalar to a one-element list containing it. -/
theorem claim_C7_amended :
    (∀ l, ListConv.to_list (PyValue.list l) = l) ∧
    (∀ s, pyContains (pyStrip s) ',' = true → pyContains (pyStrip s) ' ' = false →
       ListConv.to_list (PyValue.str s) =
         (pySplitOn ',' (pyStrip s)).map PyValue.str) ∧
    (∀ s, ¬(pyContains (pyStrip s) ',' = true ∧
            pyContains (pyStrip s) ' ' = false) →
       ListConv.to_list (PyValue.str s) =
         (pySplitWs (pyStrip s)).map PyValue.str) ∧
    ListConv.to_list PyValue.none = [] ∧
    (∀ n, ListConv.to_list (PyValue.int n) = [PyValue.int n]) ∧
    (∀ b, ListConv.to_list (PyValue.bool b) = [PyValue.bool b]) := by
  refine ⟨fun l => rfl, ?_, ?_, rfl, fun n => rfl, fun b => rfl⟩
  · intro s h1 h2
    rw [to_list_str, h1, h2]
    rfl
  · intro s h
    rw [to_list_str]
    cases h1 : pyContains (pyStrip s) ',' with
    | false => rfl
    | true =>
        cases h2 : pyContains (pyStrip s) ' ' with
        | false => exact absurd ⟨h1, h2⟩ h
        | true => rfl

/-- C7 witness for the amended claim: comma split, whitespace split, `None`,
and a scalar, at concrete inputs. -/
theorem claim_C7_amended_witness :
    ListConv.to_list (PyValue.str "a,b,c") =
      [PyValue.str "a", PyValue.str "b", PyValue.str "c"] ∧
    ListConv.to_list (PyValue.str "a b c") =
      [PyValue.str "a", PyValue.str "b", PyValue.str "c"] ∧
    ListConv.to_list PyValue.none = [] ∧
    ListConv.to_list (PyValue.int 42) = [PyValue.int 42] := by
  refine ⟨?_, ?_, claim_C7_amended.2.2.2.1, claim_C7_amended.2.2.2.2.1 42⟩
  · rw [claim_C7_amended.2.1 "a,b,c" rfl rfl]
    rfl
  · rw [claim_C7_amended.2.2.1 "a b c" (by decide)]
    rfl

/-- C8 — For every `List` subtype with no element converter registered under
the reserved key `'all'`, `to_value` fails with a configuration error
(`NotImplementedError` in the code) on every input, rather than returning a
value. -/
theorem claim_C8_missing_item_type (reg : Registry) (obj : PyValue)
    (h : ListConv.item_type reg = Option.none) :
    ListConv.to_value reg obj = Except.error ConvError.notImplemented := by
  unfold ListConv.to_value
  rw [h]

/-- C8 witness: the empty registry on a concrete input. -/
theorem claim_C8_missing_item_type_witness :
    ListConv.item_type ([] : Registry) = Option.none ∧
    ListConv.to_value ([] : Registry) (PyValue.int 5) =
      Except.error ConvError.notImplemented :=
  ⟨rfl, claim_C8_missing_item_type [] (PyValue.int 5) rfl⟩

/-! ### Container claims -/

/-- C1 — For every declared `Dictionary` subtype and every declared `List`
subtype, and for any valid raw input `r` (a mapping with distinct keys for
the dictionary, any value for the list), `to_data(to_value(r))` equals
`to_data(r)`, assuming the child converters satisfy the spec's canonical
value invariant (`to_value` is idempotent).  The dictionary's registry growth
is threaded through: the inner `to_value` grows the registry, and the outer
`to_data` runs on the grown registry. -/
theorem claim_C1_roundtrip (infer : PyValue → Conv) (reg : Registry)
    (obj : PyValue)
    (hreg : (reg.map Prod.fst).Nodup)
    (hobj : ((Dictionary.to_dict obj).map Prod.fst).Nodup)
    (hidem : ∀ n c, lookupA reg n = Option.some c → IdemToValue c)
    (hinfer : ∀ d, IdemToValue (infer d))
    (regL : Registry) (objL : PyValue) (cL : Conv)
    (hL : lookupA regL "all" = Option.some cL) (hLidem : IdemToValue cL) :
    Dictionary.to_data infer (Dictionary.to_value infer reg obj).1
        (PyValue.dict ((Dictionary.to_value infer reg obj).2)) =
      Dictionary.to_data infer reg obj ∧
    ∀ v, ListConv.to_value regL objL = Except.ok v →
      ListConv.to_data regL (PyValue.list v) = ListConv.to_data regL objL := by
  constructor
  · rw [to_value_eq infer reg obj hreg hobj]
    dsimp only
    unfold Dictionary.to_data
    rw [to_value_second_pass infer reg obj hreg hobj hidem hinfer,
      to_value_eq infer reg obj hreg hobj]
  · intro v hv
    have hv0 : ListConv.to_value regL objL =
        Except.ok ((ListConv.to_list objL).map cL.to_value) := by
      unfold ListConv.to_value ListConv.item_type
      rw [hL]
    rw [hv0] at hv
    have hveq : (ListConv.to_list objL).map cL.to_value = v := Except.ok.inj hv
    subst hveq
    have hv1 : ListConv.to_value regL
        (PyValue.list ((ListConv.to_list objL).map cL.to_value)) =
        Except.ok (((ListConv.to_list objL).map cL.to_value).map cL.to_value) := by
      unfold ListConv.to_value ListConv.item_type
      rw [hL]
      rfl
    unfold ListConv.to_data
    rw [hv0, hv1]
    unfold ListConv.item_type
    rw [hL]
    have hmm : ((ListConv.to_list objL).map cL.to_value).map cL.to_value =
        (ListConv.to_list objL).map cL.to_value := by
      rw [List.map_map]
      apply List.map_congr_left
      intro a _
      exact hLidem a
    rw [hmm]

/-- C1 witness: a dictionary subtype with one declared field receiving a
mapping with one new field, and a list subtype on a whitespace string, with
identity child converters. -/
theorem claim_C1_roundtrip_witness :
    Dictionary.to_data (fun _ => idConv)
        (Dictionary.to_value (fun _ => idConv) [("a", idConv)]
          (PyValue.dict [("b", PyValue.int 1)])).1
        (PyValue.dict ((Dictionary.to_value (fun _ => idConv) [("a", idConv)]
          (PyValue.dict [("b", PyValue.int 1)])).2)) =
      Dictionary.to_data (fun _ => idConv) [("a", idConv)]
        (PyValue.dict [("b", PyValue.int 1)]) ∧
    ListConv.to_data [("all", idConv)]
        (PyValue.list [PyValue.str "x", PyValue.str "y"]) =
      ListConv.to_data [("all", idConv)] (PyValue.str "x y") := by
  have h := claim_C1_roundtrip (fun _ => idConv) [("a", idConv)]
    (PyValue.dict [("b", PyValue.int 1)]) (by decide) (by decide)
    (fun n c hc => by
      by_cases hn : "a" = n
      · simp only [lookupA, hn, if_pos] at hc
        cases hc
        intro x
        rfl
      · simp only [lookupA, hn, if_neg, if_false] at hc
        cases hc)
    (fun d x => rfl)
    [("all", idConv)] (PyValue.str "x y") idConv rfl (fun x => rfl)
  exact ⟨h.1, h.2 [PyValue.str "x", PyValue.str "y"] rfl⟩

/-- C2 — For a `Dictionary` subtype applied to a raw mapping `m`, the key set
of `to_value(m)` is exactly the union of `m`'s keys and the post-growth
registry's keys, and every declared field absent from `m` is materialized as
its converter's `to_value(None)` default. -/
theorem claim_C2_schema_superset (infer : PyValue → Conv) (reg : Registry)
    (m : List (String × PyValue))
    (hreg : (reg.map Prod.fst).Nodup) (hm : (m.map Prod.fst).Nodup) :
    (∀ n, n ∈ (Dictionary.to_value infer reg (PyValue.dict m)).2.map Prod.fst ↔
       (n ∈ m.map Prod.fst ∨
        n ∈ (Dictionary.to_value infer reg (PyValue.dict m)).1.map Prod.fst)) ∧
    (∀ n c, n ∉ m.map Prod.fst → lookupA reg n = Option.some c →
       lookupA (Dictionary.to_value infer reg (PyValue.dict m)).2 n =
         Option.some (c.to_value PyValue.none)) := by
  have hobj : ((Dictionary.to_dict (PyValue.dict m)).map Prod.fst).Nodup := hm
  rw [to_value_eq infer reg (PyValue.dict m) hreg hobj]
  have hd : Dictionary.to_dict (PyValue.dict m) = m := rfl
  constructor
  · intro n
    dsimp only
    rw [mem_valueMapping_keys_iff, mem_grownRegistry_keys_iff, hd]
    tauto
  · intro n c hn hc
    dsimp only
    exact lookupA_valueMapping_absent hn hc hreg

/-- C2 witness: one declared field `a` absent from the raw mapping
`{b: 1}`. -/
theorem claim_C2_schema_superset_witness :
    ("a" ∈ (Dictionary.to_value (fun _ => idConv) [("a", idConv)]
        (PyValue.dict [("b", PyValue.int 1)])).2.map Prod.fst ↔
      ("a" ∈ ([("b", PyValue.int 1)] : List (String × PyValue)).map Prod.fst ∨
       "a" ∈ (Dictionary.to_value (fun _ => idConv) [("a", idConv)]
        (PyValue.dict [("b", PyValue.int 1)])).1.map Prod.fst)) ∧
    lookupA (Dictionary.to_value (fun _ => idConv) [("a", idConv)]
        (PyValue.dict [("b", PyValue.int 1)])).2 "a" =
      Option.some (idConv.to_value PyValue.none) :=
  ⟨(claim_C2_schema_superset (fun _ => idConv) [("a", idConv)]
      [("b", PyValue.int 1)] (by decide) (by decide)).1 "a",
   (claim_C2_schema_superset (fun _ => idConv) [("a", idConv)]
      [("b", PyValue.int 1)] (by decide) (by decide)).2 "a" idConv
     (by decide) rfl⟩

/-- C3 — For a `Dictionary` subtype applied to a raw mapping `m`, the keys of
`to_data(m)` are exactly the keys of the post-growth registry (here proved as
equality of the key lists, order included). -/
theorem claim_C3_emission_shape (infer : PyValue → Conv) (reg : Registry)
    (m : List (String × PyValue))
    (hreg : (reg.map Prod.fst).Nodup) (hm : (m.map Prod.fst).Nodup) :
    (Dictionary.to_data infer reg (PyValue.dict m)).2.map Prod.fst =
      (Dictionary.to_data infer reg (PyValue.dict m)).1.map Prod.fst := by
  have hobj : ((Dictionary.to_dict (PyValue.dict m)).map Prod.fst).Nodup := hm
  have hg := grownRegistry_keys_nodup infer reg (PyValue.dict m) hreg hobj
  rw [to_data_eq infer reg (PyValue.dict m) hreg hobj hg]
  exact map_fst_map_keyed _ _

/-- C3 witness: the raw mapping `{b: 1, a: 2}` against a registry declaring
`a`; the emitted keys equal the grown registry's keys. -/
theorem claim_C3_emission_shape_witness :
    (Dictionary.to_data (fun _ => idConv) [("a", idConv)]
        (PyValue.dict [("b", PyValue.int 1), ("a", PyValue.int 2)])).2.map
          Prod.fst =
      (Dictionary.to_data (fun _ => idConv) [("a", idConv)]
        (PyValue.dict [("b", PyValue.int 1), ("a", PyValue.int 2)])).1.map
          Prod.fst :=
  claim_C3_emission_shape (fun _ => idConv) [("a", idConv)]
    [("b", PyValue.int 1), ("a", PyValue.int 2)] (by decide) (by decide)

/-- C10 — In `Dictionary.to_data`, the `None` fallback of
`value.get(name, None)` is unreachable: for every input, the mapping produced
by the internal `to_value` call contains every key of the post-growth
registry, and each registered converter's `to_data` is applied to the value
`to_value` produced for that field. -/
theorem claim_C10_no_null_fallback (infer : PyValue → Conv) (reg : Registry)
    (obj : PyValue) (hreg : (reg.map Prod.fst).Nodup)
    (hobj : ((Dictionary.to_dict obj).map Prod.fst).Nodup) :
    (∀ n ∈ (Dictionary.to_value infer reg obj).1.map Prod.fst,
       (lookupA (Dictionary.to_value infer reg obj).2 n).isSome = true) ∧
    (∀ n c, lookupA (Dictionary.to_value infer reg obj).1 n = Option.some c →
       ∃ w, lookupA (Dictionary.to_value infer reg obj).2 n = Option.some w ∧
         lookupA (Dictionary.to_data infer reg obj).2 n =
           Option.some (c.to_data w)) := by
  have hg := grownRegistry_keys_nodup infer reg obj hreg hobj
  rw [to_value_eq infer reg obj hreg hobj, to_data_eq infer reg obj hreg hobj hg]
  dsimp only
  constructor
  · intro n hn
    rw [lookupA_isSome_iff, mem_valueMapping_keys_iff]
    rw [mem_grownRegistry_keys_iff] at hn
    tauto
  · intro n c hc
    have hn : n ∈ (grownRegistry infer reg obj).map Prod.fst := by
      rw [← lookupA_isSome_iff, hc]
      rfl
    have hs : (lookupA (valueMapping infer reg obj) n).isSome = true := by
      rw [lookupA_isSome_iff, mem_valueMapping_keys_iff]
      rw [mem_grownRegistry_keys_iff] at hn
      tauto
    obtain ⟨w, hw⟩ := Option.isSome_iff_exists.mp hs
    refine ⟨w, hw, ?_⟩
    have hmem : (n, c) ∈ grownRegistry infer reg obj := lookupA_mem hc
    have hmk := lookupA_map_keyed
      (fun e => e.2.to_data
        ((lookupA (valueMapping infer reg obj) e.1).getD PyValue.none))
      hmem hg
    exact hmk.trans (by simp [hw])

/-- C10 witness: a registry declaring `a` and the raw string `"b"` (coerced
to `{b: None}`); the grown registry's keys `b` and `a` are both present in
the internal value mapping. -/
theorem claim_C10_no_null_fallback_witness :
    (lookupA (Dictionary.to_value (fun _ => idConv) [("a", idConv)]
        (PyValue.str "b")).2 "a").isSome = true ∧
    (lookupA (Dictionary.to_value (fun _ => idConv) [("a", idConv)]
        (PyValue.str "b")).2 "b").isSome = true :=
  ⟨(claim_C10_no_null_fallback (fun _ => idConv) [("a", idConv)]
      (PyValue.str "b") (by decide) (by decide)).1 "a" (by decide),
   (claim_C10_no_null_fallback (fun _ => idConv) [("a", idConv)]
      (PyValue.str "b") (by decide) (by decide)).1 "b" (by decide)⟩

example : Dictionary.to_dict (PyValue.str "key") = [("key", PyValue.none)] := rfl

example : ListConv.to_list (PyValue.str "a,b,c") =
    [PyValue.str "a", PyValue.str "b", PyValue.str "c"] := rfl

example : ListConv.to_list (PyValue.str "a b c") =
    [PyValue.str "a", PyValue.str "b", PyValue.str "c"] := rfl
